import Mathlib

/-!
Verification of `cleanPlain.py`: a utility that deletes bare `qN.tex` files
from `questions` subfolders while keeping `qN_xm.tex` and `qN_soln.tex`.

The filesystem is modelled as a finite tree: a node is a file or a directory
holding a list of named entries.  Paths are lists of component names relative
to the resolved root.  The three source functions `find_candidate_deletions`,
`gather_target_dirs` and `main` are embedded below, together with the parts of
`pathlib` the script uses (`glob("q*.tex")`, `iterdir`, `rglob("*")`,
`is_dir`, `unlink`) and the two regular expressions `PLAIN_Q_REGEX` and
`PROTECTED_REGEX`.
-/

/-- A filesystem node: a regular file or a directory with named entries. -/
inductive FS where
  | file : FS
  | dir (entries : List (String × FS)) : FS

/-- `True` on directories, `False` on regular files (`Path.is_dir`). -/
def FS.isDir : FS → Bool
  | .file => false
  | .dir _ => true

/-- First entry with the given name in a directory listing. -/
def findEntry : List (String × FS) → String → Option FS
  | [], _ => none
  | (m, t) :: rest, n => if m = n then some t else findEntry rest n

/-- Remove the first entry with the given name. -/
def removeEntry : List (String × FS) → String → List (String × FS)
  | [], _ => []
  | (m, t) :: rest, n => if m = n then rest else (m, t) :: removeEntry rest n

/-- Replace the value of the first entry with the given name. -/
def setEntry : List (String × FS) → String → FS → List (String × FS)
  | [], _, _ => []
  | (m, t) :: rest, n, u => if m = n then (m, u) :: rest else (m, t) :: setEntry rest n u

/-- Resolve a path from a root directory listing to the node it denotes. -/
def lookupFS : List (String × FS) → List String → Option FS
  | es, [] => some (FS.dir es)
  | es, [n] => findEntry es n
  | es, n :: m :: p =>
      match findEntry es n with
      | some (FS.dir es2) => lookupFS es2 (m :: p)
      | _ => none

/-- The kind of node a path denotes: `some true` a directory, `some false` a
file, `none` nothing. -/
def typeAt (es : List (String × FS)) (p : List String) : Option Bool :=
  (lookupFS es p).map FS.isDir

/-- `Path.unlink`: remove the regular file at the path, or fail with the
OS error message. -/
def unlink : List (String × FS) → List String → Except String (List (String × FS))
  | _, [] => Except.error "Is a directory"
  | es, [n] =>
      match findEntry es n with
      | none => Except.error "No such file or directory"
      | some (FS.dir _) => Except.error "Is a directory"
      | some FS.file => Except.ok (removeEntry es n)
  | es, n :: m :: p =>
      match findEntry es n with
      | some (FS.dir es2) =>
          match unlink es2 (m :: p) with
          | Except.ok es2' => Except.ok (setEntry es n (FS.dir es2'))
          | Except.error e => Except.error e
      | some FS.file => Except.error "Not a directory"
      | none => Except.error "No such file or directory"

mutual

/-- All descendants of a node (any depth), with their relative paths, in
enumeration order: `Path.rglob("*")`. -/
def FS.descendants : FS → List (List String × FS)
  | .file => []
  | .dir es => descList es

/-- All descendants of a directory listing, with their relative paths. -/
def descList : List (String × FS) → List (List String × FS)
  | [] => []
  | (n, t) :: rest =>
      ([n], t) :: ((FS.descendants t).map (fun q => (n :: q.1, q.2)) ++ descList rest)

end

mutual

/-- Well-formedness of a node: every directory has distinct entry names
(as on a real filesystem). -/
def FS.wfB : FS → Bool
  | .file => true
  | .dir es => decide ((es.map Prod.fst).Nodup) && entriesAllWfB es

/-- Well-formedness of every node in a directory listing. -/
def entriesAllWfB : List (String × FS) → Bool
  | [] => true
  | (_, t) :: rest => FS.wfB t && entriesAllWfB rest

end

/-- Well-formedness of a root directory listing. -/
def wfFS (es : List (String × FS)) : Bool :=
  FS.wfB (FS.dir es)

/-- `IGNORE_DIRS = {"xmScripts", ".vscode", ".git"}`. -/
def IGNORE_DIRS : List String := ["xmScripts", ".vscode", ".git"]

/-- Base name of a path (`Path.name`). -/
def pathBase (p : List String) : String := p.getLastD ""

/-- After the leading digit run of rest-of-name, exactly `.tex` remains and the
digit run is nonempty: the tail of `^q(\d+)\.tex$`. -/
def qTailPlain (cs : List Char) : Bool :=
  !(cs.takeWhile Char.isDigit).isEmpty &&
    (cs.dropWhile Char.isDigit == ['.', 't', 'e', 'x'])

/-- Tail of `^q(\d+)_(xm|soln)\.tex$` after the leading `q`. -/
def qTailProtected (cs : List Char) : Bool :=
  !(cs.takeWhile Char.isDigit).isEmpty &&
    ((cs.dropWhile Char.isDigit == ['_', 'x', 'm', '.', 't', 'e', 'x']) ||
     (cs.dropWhile Char.isDigit == ['_', 's', 'o', 'l', 'n', '.', 't', 'e', 'x']))

/-- `PLAIN_Q_REGEX.match(name)`: the name is `q<digits>.tex`. -/
def PLAIN_Q_REGEX (name : String) : Bool :=
  match name.toList with
  | [] => false
  | c :: rest => c == 'q' && qTailPlain rest

/-- `PROTECTED_REGEX.match(name)`: the name is `q<digits>_xm.tex` or
`q<digits>_soln.tex`. -/
def PROTECTED_REGEX (name : String) : Bool :=
  match name.toList with
  | [] => false
  | c :: rest => c == 'q' && qTailProtected rest

/-- The glob pattern `q*.tex`: leading `q`, trailing `.tex`. -/
def globQStarTex (name : String) : Bool :=
  match name.toList with
  | [] => false
  | c :: rest => c == 'q' && decide (['.', 't', 'e', 'x'] <:+ rest)

/-- `find_candidate_deletions`: among the entry names of a `questions`
directory, those enumerated by `glob("q*.tex")` that are not protected and
match the plain pattern. -/
def find_candidate_deletions (entryNames : List String) : List String :=
  (entryNames.filter globQStarTex).filter
    (fun name => !PROTECTED_REGEX name && PLAIN_Q_REGEX name)

/-- Paths of all descendant directories of the root (`rglob("*")` filtered by
`is_dir`). -/
def dirPaths (es : List (String × FS)) : List (List String) :=
  ((descList es).filter (fun q => q.2.isDir)).map Prod.fst

/-- Paths of the direct child directories of the root (`iterdir` filtered by
`is_dir`). -/
def childDirPaths (es : List (String × FS)) : List (List String) :=
  (es.filter (fun nt => nt.2.isDir)).map (fun nt => [nt.1])

/-- `gather_target_dirs`: subdirectories to inspect, excluding those whose own
base name is in `IGNORE_DIRS`. -/
def gather_target_dirs (rootEntries : List (String × FS)) (recursive : Bool) :
    List (List String) :=
  let dirs := if recursive then dirPaths rootEntries else childDirPaths rootEntries
  dirs.filter (fun p => !(IGNORE_DIRS.contains (pathBase p)))

/-- Code-point comparison of character lists, as Python compares the strings
of two paths. -/
def charListLe : List Char → List Char → Bool
  | [], _ => true
  | _ :: _, [] => false
  | a :: as, b :: bs => if a = b then charListLe as bs else decide (a < b)

/-- Sort key of a path: its joined string. -/
def pathKeyChars (p : List String) : List Char :=
  (String.intercalate "/" p).toList

/-- Insert a path into a list sorted by `charListLe` of the keys. -/
def insertPath (x : List String) : List (List String) → List (List String)
  | [] => [x]
  | y :: ys =>
      if charListLe (pathKeyChars y) (pathKeyChars x) then y :: insertPath x ys
      else x :: y :: ys

/-- `sorted(dirs)`: the target directories in ascending path order. -/
def sortPaths : List (List String) → List (List String)
  | [] => []
  | x :: xs => insertPath x (sortPaths xs)

/-- One line of the script's output, tagged as the script tags it. -/
inductive Msg where
  | info (text : String)
  | skip (path : List String)
  | dry (path : List String)
  | del (path : List String)
  | err (path : List String) (reason : String)
  | summary (count : Nat)
deriving DecidableEq

/-- The three command-line flags. -/
structure Config where
  dry_run : Bool
  recursive : Bool
  quiet : Bool
deriving DecidableEq

/-- The orchestrator's running state: the filesystem, the two counters and the
output emitted so far. -/
structure RunState where
  tree : List (String × FS)
  total_deleted : Nat
  total_candidates : Nat
  out : List Msg

/-- The body of `main`'s inner loop for one candidate file: preview in dry-run
mode, otherwise attempt the unlink, counting successes and reporting failures. -/
def processCandidate (cfg : Config) (st : RunState) (fpath : List String) : RunState :=
  if cfg.dry_run then
    { st with out := st.out ++ [Msg.dry fpath] }
  else
    match unlink st.tree fpath with
    | Except.ok tree' =>
        { st with tree := tree', total_deleted := st.total_deleted + 1,
                  out := st.out ++ [Msg.del fpath] }
    | Except.error e =>
        { st with out := st.out ++ [Msg.err fpath e] }

/-- The part of `main`'s outer loop after the `questions` directory has been
found and its candidates classified: count them, report an empty directory
unless quiet, and process each candidate in order. -/
def processQuestions (cfg : Config) (st : RunState) (qdir : List String)
    (candidates : List String) : RunState :=
  if candidates.isEmpty then
    if cfg.quiet then { st with total_candidates := st.total_candidates + candidates.length }
    else { st with total_candidates := st.total_candidates + candidates.length,
                   out := st.out ++ [Msg.skip qdir] }
  else
    candidates.foldl (fun s name => processCandidate cfg s (qdir ++ [name]))
      { st with total_candidates := st.total_candidates + candidates.length }

/-- The body of `main`'s outer loop for one target directory: find its
`questions` subdirectory, classify the files there, and process each candidate. -/
def processDir (cfg : Config) (st : RunState) (d : List String) : RunState :=
  match lookupFS st.tree (d ++ ["questions"]) with
  | some (FS.dir qes) =>
      processQuestions cfg st (d ++ ["questions"])
        (find_candidate_deletions (qes.map Prod.fst))
  | _ => st

/-- The up-front `[INFO]` lines: root, recursive mode, dry-run mode; nothing
when `--quiet` is given. -/
def infoLines (cfg : Config) : List Msg :=
  if cfg.quiet then []
  else
    [Msg.info "Root"] ++
      (if cfg.recursive then [Msg.info "Mode: recursive"] else []) ++
      (if cfg.dry_run then [Msg.info "Dry-run: no files will be deleted"] else [])

/-- `main`: the whole run over a root directory listing, returning the final
filesystem, counters, and the full output. -/
def cleanPlain.main (cfg : Config) (rootEntries : List (String × FS)) : RunState :=
  let dirs := gather_target_dirs rootEntries cfg.recursive
  let st0 : RunState := ⟨rootEntries, 0, 0, infoLines cfg⟩
  let st1 := (sortPaths dirs).foldl (processDir cfg) st0
  { st1 with
      out := st1.out ++
        [Msg.summary (if cfg.dry_run then st1.total_candidates else st1.total_deleted)] }

/-- `find_candidate_deletions` with the plain-pattern test applied before the
protected-pattern test, for comparing the two check orders. -/
def find_candidate_deletions_plainFirst (entryNames : List String) : List String :=
  (entryNames.filter globQStarTex).filter
    (fun name => PLAIN_Q_REGEX name && !PROTECTED_REGEX name)

/-- Messages suppressed by `--quiet`: the `[INFO]` and `[SKIP]` lines. -/
def isInfoOrSkip : Msg → Bool
  | .info _ => true
  | .skip _ => true
  | _ => false

/-- No plain-named regular file remains under the `questions` subdirectory of
the target directory `d`. -/
def noPlainFileAt (es : List (String × FS)) (d : List String) : Prop :=
  ∀ n, PLAIN_Q_REGEX n = true → typeAt es (d ++ ["questions", n]) ≠ some false

/-- A root with one target directory holding one plain file and two protected
files. -/
def demoTree : List (String × FS) :=
  [("A", FS.dir [("questions", FS.dir
      [("q1.tex", FS.file), ("q1_xm.tex", FS.file), ("q1_soln.tex", FS.file)])])]

/-- A root whose only pattern-matching entry is a directory named `q1.tex`. -/
def dirCandTree : List (String × FS) :=
  [("A", FS.dir [("questions", FS.dir [("q1.tex", FS.dir [])])])]

/-- A root holding only an ignored directory with a subdirectory. -/
def ignoreTree : List (String × FS) :=
  [(".git", FS.dir [("sub", FS.dir [])])]

/-- Live mode, non-recursive, verbose. -/
def cfgLive : Config := ⟨false, false, false⟩

/-- Live mode, non-recursive, quiet. -/
def cfgQuietLive : Config := ⟨false, false, true⟩

/-- Dry-run mode, non-recursive, verbose. -/
def cfgDry : Config := ⟨true, false, false⟩

/-- A starting state over `dirCandTree` with empty output and zero counters. -/
def st5 : RunState := ⟨dirCandTree, 0, 0, []⟩

/-- The path of the directory named `q1.tex` inside `dirCandTree`. -/
def p5 : List String := ["A", "questions", "q1.tex"]

example : PLAIN_Q_REGEX "q1.tex" = true := by decide
example : PLAIN_Q_REGEX "q23.tex" = true := by decide
example : PLAIN_Q_REGEX "q1_xm.tex" = false := by decide
example : PROTECTED_REGEX "q1_xm.tex" = true := by decide
example : PROTECTED_REGEX "q12_soln.tex" = true := by decide
example : PROTECTED_REGEX "q1.tex" = false := by decide
example : PLAIN_Q_REGEX "q.tex" = false := by decide
example : globQStarTex "q.tex" = true := by decide
example : find_candidate_deletions ["q1.tex", "q1_xm.tex", "q1_soln.tex", "readme.tex"] =
    ["q1.tex"] := by decide

/-! ### Lemmas about the name patterns -/

theorem plain_not_protected (name : String) (h : PLAIN_Q_REGEX name = true) :
    PROTECTED_REGEX name = false := by
  rcases hc : name.toList with _ | ⟨c, rest⟩ <;>
    simp only [PLAIN_Q_REGEX, PROTECTED_REGEX, hc] at h ⊢
  simp only [Bool.and_eq_true, beq_iff_eq] at h
  obtain ⟨hcq, htail⟩ := h
  simp only [qTailPlain, Bool.and_eq_true, beq_iff_eq] at htail
  obtain ⟨-, hdrop⟩ := htail
  simp [qTailProtected, hdrop]

theorem plain_glob (name : String) (h : PLAIN_Q_REGEX name = true) :
    globQStarTex name = true := by
  rcases hc : name.toList with _ | ⟨c, rest⟩ <;>
    simp only [PLAIN_Q_REGEX, globQStarTex, hc] at h ⊢
  · exact absurd h (by simp)
  simp only [Bool.and_eq_true, beq_iff_eq] at h
  obtain ⟨hcq, htail⟩ := h
  simp only [qTailPlain, Bool.and_eq_true, beq_iff_eq] at htail
  obtain ⟨-, hdrop⟩ := htail
  have hsplit : rest.takeWhile Char.isDigit ++ ['.', 't', 'e', 'x'] = rest := by
    rw [← hdrop]
    exact List.takeWhile_append_dropWhile Char.isDigit rest
  simp only [Bool.and_eq_true, beq_iff_eq, decide_eq_true_eq]
  exact ⟨hcq, rest.takeWhile Char.isDigit, hsplit⟩

theorem mem_candidates_iff (entryNames : List String) (n : String) :
    n ∈ find_candidate_deletions entryNames ↔
      n ∈ entryNames ∧ PLAIN_Q_REGEX n = true := by
  unfold find_candidate_deletions
  simp only [List.mem_filter, Bool.and_eq_true, Bool.not_eq_true']
  constructor
  · rintro ⟨⟨hmem, -⟩, -, hplain⟩
    exact ⟨hmem, hplain⟩
  · rintro ⟨hmem, hplain⟩
    exact ⟨⟨hmem, plain_glob n hplain⟩, plain_not_protected n hplain, hplain⟩

/-- C1: a file directly inside a `questions` directory is selected as a
deletion candidate exactly when its name matches `^q(\d+)\.tex$`; names
matching `^q(\d+)_(xm|soln)\.tex$` are never selected; names matching neither
pattern are excluded without error. -/
theorem claim_C1 (entryNames : List String) (n : String) :
    (n ∈ find_candidate_deletions entryNames ↔
      n ∈ entryNames ∧ PLAIN_Q_REGEX n = true) ∧
    (PROTECTED_REGEX n = true → n ∉ find_candidate_deletions entryNames) ∧
    (PLAIN_Q_REGEX n = false → n ∉ find_candidate_deletions entryNames) := by
  refine ⟨mem_candidates_iff entryNames n, ?_, ?_⟩
  · intro hprot hmem
    obtain ⟨-, hplain⟩ := (mem_candidates_iff entryNames n).mp hmem
    rw [plain_not_protected n hplain] at hprot
    exact Bool.false_ne_true hprot
  · intro hnp hmem
    obtain ⟨-, hplain⟩ := (mem_candidates_iff entryNames n).mp hmem
    rw [hnp] at hplain
    exact Bool.false_ne_true hplain

/-- Witness for C1 at concrete inputs: the protected name and a non-matching
name are excluded, and the plain name is included. -/
theorem claim_C1_witness :
    ("q1.tex" ∈ find_candidate_deletions ["q1.tex", "q2_soln.tex", "notes.tex"]) ∧
    ("q2_soln.tex" ∉ find_candidate_deletions ["q1.tex", "q2_soln.tex", "notes.tex"]) ∧
    ("notes.tex" ∉ find_candidate_deletions ["q1.tex", "q2_soln.tex", "notes.tex"]) :=
  ⟨(claim_C1 ["q1.tex", "q2_soln.tex", "notes.tex"] "q1.tex").1.mpr
      ⟨by decide, by decide⟩,
   (claim_C1 ["q1.tex", "q2_soln.tex", "notes.tex"] "q2_soln.tex").2.1 (by decide),
   (claim_C1 ["q1.tex", "q2_soln.tex", "notes.tex"] "notes.tex").2.2 (by decide)⟩

/-- C9: no name matches both the plain and the protected pattern, and the
candidate set does not depend on which of the two checks is applied first. -/
theorem claim_C9 (name : String) (entryNames : List String) :
    ¬(PLAIN_Q_REGEX name = true ∧ PROTECTED_REGEX name = true) ∧
    find_candidate_deletions entryNames =
      find_candidate_deletions_plainFirst entryNames := by
  constructor
  · rintro ⟨h1, h2⟩
    rw [plain_not_protected name h1] at h2
    exact Bool.false_ne_true h2
  · unfold find_candidate_deletions find_candidate_deletions_plainFirst
    have : (fun nm => !PROTECTED_REGEX nm && PLAIN_Q_REGEX nm) =
        (fun nm => PLAIN_Q_REGEX nm && !PROTECTED_REGEX nm) := by
      funext nm
      exact Bool.and_comm _ _
    rw [this]

/-- Witness for C9 at a concrete input. -/
theorem claim_C9_witness :
    ¬(PLAIN_Q_REGEX "q7_soln.tex" = true ∧ PROTECTED_REGEX "q7_soln.tex" = true) ∧
    find_candidate_deletions ["q1.tex", "q1_xm.tex", "junk.tex"] =
      find_candidate_deletions_plainFirst ["q1.tex", "q1_xm.tex", "junk.tex"] :=
  ⟨(claim_C9 "q7_soln.tex" []).1, (claim_C9 "q7_soln.tex" _).2⟩

/-! ### Lemmas about sorting and directory gathering -/

theorem mem_insertPath (x a : List String) (l : List (List String)) :
    a ∈ insertPath x l ↔ a = x ∨ a ∈ l := by
  induction l with
  | nil => simp [insertPath]
  | cons y ys ih =>
      unfold insertPath
      split
      · simp only [List.mem_cons, ih]
        tauto
      · simp only [List.mem_cons]

theorem mem_sortPaths (a : List String) (l : List (List String)) :
    a ∈ sortPaths l ↔ a ∈ l := by
  induction l with
  | nil => simp [sortPaths]
  | cons x xs ih =>
      unfold sortPaths
      rw [mem_insertPath, ih, List.mem_cons]

theorem descList_path_ne_nil (es : List (String × FS)) (q : List String × FS)
    (hq : q ∈ descList es) : q.1 ≠ [] := by
  induction es with
  | nil => simp [descList] at hq
  | cons nt rest ih =>
      rcases nt with ⟨n, t⟩
      unfold descList at hq
      rcases List.mem_cons.mp hq with h | h
      · rw [h]
        simp
      · rcases List.mem_append.mp h with h2 | h2
        · obtain ⟨a, -, ha⟩ := List.mem_map.mp h2
          rw [← ha]
          simp
        · exact ih h2

theorem pathBase_singleton (n : String) : pathBase [n] = n := rfl

theorem gather_nonrec_eq (es : List (String × FS)) :
    gather_target_dirs es false =
      (childDirPaths es).filter (fun p => !(IGNORE_DIRS.contains (pathBase p))) := rfl

theorem gather_rec_eq (es : List (String × FS)) :
    gather_target_dirs es true =
      (dirPaths es).filter (fun p => !(IGNORE_DIRS.contains (pathBase p))) := rfl

theorem mem_gather_nonrec (es : List (String × FS)) (p : List String) :
    p ∈ gather_target_dirs es false ↔
      ∃ n t, p = [n] ∧ (n, t) ∈ es ∧ t.isDir = true ∧
        IGNORE_DIRS.contains n = false := by
  rw [gather_nonrec_eq]
  constructor
  · intro h
    obtain ⟨hin, hig⟩ := List.mem_filter.mp h
    obtain ⟨⟨n, t⟩, hnt, hp⟩ := List.mem_map.mp hin
    obtain ⟨hmem, hdir⟩ := List.mem_filter.mp hnt
    refine ⟨n, t, hp.symm, hmem, by simpa using hdir, ?_⟩
    rw [← hp, pathBase_singleton] at hig
    simpa using hig
  · rintro ⟨n, t, hp, hmem, hdir, hig⟩
    refine List.mem_filter.mpr ⟨?_, ?_⟩
    · exact List.mem_map.mpr ⟨⟨n, t⟩, List.mem_filter.mpr ⟨hmem, by simpa using hdir⟩, hp.symm⟩
    · rw [hp, pathBase_singleton]
      simpa using hig

theorem mem_gather_rec (es : List (String × FS)) (p : List String) :
    p ∈ gather_target_dirs es true ↔
      ∃ t, (p, t) ∈ descList es ∧ t.isDir = true ∧
        IGNORE_DIRS.contains (pathBase p) = false := by
  rw [gather_rec_eq]
  constructor
  · intro h
    obtain ⟨hin, hig⟩ := List.mem_filter.mp h
    obtain ⟨⟨q, t⟩, hqt, hp⟩ := List.mem_map.mp hin
    obtain ⟨hdesc, hdir⟩ := List.mem_filter.mp hqt
    have hq : q = p := hp
    subst hq
    exact ⟨t, hdesc, by simpa using hdir, by simpa using hig⟩
  · rintro ⟨t, hdesc, hdir, hig⟩
    refine List.mem_filter.mpr ⟨?_, by simpa using hig⟩
    exact List.mem_map.mpr ⟨⟨p, t⟩, List.mem_filter.mpr ⟨hdesc, by simpa using hdir⟩, rfl⟩

theorem root_not_mem_gather (es : List (String × FS)) (r : Bool) :
    [] ∉ gather_target_dirs es r := by
  intro h
  cases r
  · obtain ⟨n, t, hp, -⟩ := (mem_gather_nonrec es []).mp h
    exact List.noConfusion hp
  · obtain ⟨t, hin, -⟩ := (mem_gather_rec es []).mp h
    exact descList_path_ne_nil es ([], t) hin rfl

/-- C2 counterexample: in recursive mode, a directory strictly below an
ignored `.git` directory does appear in the target-directory list. -/
theorem claim_C2_counterexample :
    [".git", "sub"] ∈ gather_target_dirs ignoreTree true ∧
      IGNORE_DIRS.contains ".git" = true := by
  constructor
  · decide
  · decide

/-- C2 amended: no listed target directory has an ignored base name, and in
non-recursive mode every listed target is a direct child of the root (so
nothing below an ignored directory appears); in recursive mode, however,
descendants of an ignored directory can appear when their own names are not
ignored. -/
theorem claim_C2_amended (es : List (String × FS)) (r : Bool) (p : List String)
    (hp : p ∈ gather_target_dirs es r) :
    IGNORE_DIRS.contains (pathBase p) = false ∧ (r = false → ∃ n, p = [n]) := by
  constructor
  · cases r
    · obtain ⟨n, t, hpn, -, -, hig⟩ := (mem_gather_nonrec es p).mp hp
      rw [hpn, pathBase_singleton]
      exact hig
    · obtain ⟨t, -, -, hig⟩ := (mem_gather_rec es p).mp hp
      exact hig
  · intro hr
    subst hr
    obtain ⟨n, t, hpn, -⟩ := (mem_gather_nonrec es p).mp hp
    exact ⟨n, hpn⟩

/-- Witness for C2's amended claim at a concrete input. -/
theorem claim_C2_amended_witness :
    IGNORE_DIRS.contains (pathBase [".git", "sub"]) = false ∧
      (true = false → ∃ n, [".git", "sub"] = [n]) :=
  claim_C2_amended ignoreTree true [".git", "sub"] (by decide)

/-! ### The shape of the run's output -/

theorem processCandidate_out_mem (cfg : Config) (st : RunState) (f : List String)
    (m : Msg) (h : m ∈ (processCandidate cfg st f).out) :
    m ∈ st.out ∨ m = Msg.dry f ∨ m = Msg.del f ∨ ∃ e, m = Msg.err f e := by
  unfold processCandidate at h
  by_cases hd : cfg.dry_run = true
  · rw [if_pos hd] at h
    rcases List.mem_append.mp h with h2 | h2
    · exact Or.inl h2
    · exact Or.inr (Or.inl (List.mem_singleton.mp h2))
  · rw [if_neg hd] at h
    cases hu : unlink st.tree f with
    | ok tr =>
        rw [hu] at h
        rcases List.mem_append.mp h with h2 | h2
        · exact Or.inl h2
        · exact Or.inr (Or.inr (Or.inl (List.mem_singleton.mp h2)))
    | error e =>
        rw [hu] at h
        rcases List.mem_append.mp h with h2 | h2
        · exact Or.inl h2
        · exact Or.inr (Or.inr (Or.inr ⟨e, List.mem_singleton.mp h2⟩))

theorem foldPC_out_mem (cfg : Config) (fp : String → List String) :
    ∀ (l : List String) (st : RunState) (m : Msg),
      m ∈ (l.foldl (fun s name => processCandidate cfg s (fp name)) st).out →
      m ∈ st.out ∨ ∃ n, n ∈ l ∧
        (m = Msg.dry (fp n) ∨ m = Msg.del (fp n) ∨ ∃ e, m = Msg.err (fp n) e) := by
  intro l
  induction l with
  | nil => exact fun st m h => Or.inl h
  | cons a l ih =>
      intro st m h
      rw [List.foldl_cons] at h
      rcases ih _ m h with h2 | ⟨n, hn, hm⟩
      · rcases processCandidate_out_mem cfg st (fp a) m h2 with h3 | h3
        · exact Or.inl h3
        · exact Or.inr ⟨a, List.mem_cons_self a l, h3⟩
      · exact Or.inr ⟨n, List.mem_cons_of_mem a hn, hm⟩

theorem processQuestions_out_mem (cfg : Config) (st : RunState) (qdir : List String)
    (candidates : List String) (m : Msg)
    (h : m ∈ (processQuestions cfg st qdir candidates).out) :
    m ∈ st.out ∨ (cfg.quiet = false ∧ m = Msg.skip qdir) ∨
      ∃ n, n ∈ candidates ∧
        (m = Msg.dry (qdir ++ [n]) ∨ m = Msg.del (qdir ++ [n]) ∨
          ∃ e, m = Msg.err (qdir ++ [n]) e) := by
  unfold processQuestions at h
  by_cases hemp : candidates.isEmpty = true
  · rw [if_pos hemp] at h
    by_cases hq : cfg.quiet = true
    · rw [if_pos hq] at h
      exact Or.inl h
    · rw [if_neg hq] at h
      rcases List.mem_append.mp h with h2 | h2
      · exact Or.inl h2
      · exact Or.inr (Or.inl ⟨by revert hq; cases cfg.quiet <;> simp,
          List.mem_singleton.mp h2⟩)
  · rw [if_neg hemp] at h
    rcases foldPC_out_mem cfg (fun name => qdir ++ [name]) candidates _ m h with
      h2 | ⟨n, hn, hm⟩
    · exact Or.inl h2
    · exact Or.inr (Or.inr ⟨n, hn, hm⟩)

theorem processDir_out_mem (cfg : Config) (st : RunState) (d : List String)
    (m : Msg) (h : m ∈ (processDir cfg st d).out) :
    m ∈ st.out ∨ (cfg.quiet = false ∧ m = Msg.skip (d ++ ["questions"])) ∨
      ∃ n, PLAIN_Q_REGEX n = true ∧
        (m = Msg.dry (d ++ ["questions", n]) ∨ m = Msg.del (d ++ ["questions", n]) ∨
          ∃ e, m = Msg.err (d ++ ["questions", n]) e) := by
  unfold processDir at h
  split at h
  case _ qes heq =>
    rcases processQuestions_out_mem cfg st _ _ m h with h2 | h2 | ⟨n, hn, hm⟩
    · exact Or.inl h2
    · exact Or.inr (Or.inl h2)
    · obtain ⟨-, hplain⟩ := (mem_candidates_iff _ n).mp hn
      simp only [List.append_assoc, List.singleton_append] at hm
      exact Or.inr (Or.inr ⟨n, hplain, hm⟩)
  case _ =>
    exact Or.inl h

theorem foldPD_out_mem (cfg : Config) :
    ∀ (ds : List (List String)) (st : RunState) (m : Msg),
      m ∈ ((ds.foldl (processDir cfg) st).out) →
      m ∈ st.out ∨ ∃ d, d ∈ ds ∧
        ((cfg.quiet = false ∧ m = Msg.skip (d ++ ["questions"])) ∨
          ∃ n, PLAIN_Q_REGEX n = true ∧
            (m = Msg.dry (d ++ ["questions", n]) ∨ m = Msg.del (d ++ ["questions", n]) ∨
              ∃ e, m = Msg.err (d ++ ["questions", n]) e)) := by
  intro ds
  induction ds with
  | nil => exact fun st m h => Or.inl h
  | cons a ds ih =>
      intro st m h
      rw [List.foldl_cons] at h
      rcases ih _ m h with h2 | ⟨d, hd, hm⟩
      · rcases processDir_out_mem cfg st a m h2 with h3 | h3
        · exact Or.inl h3
        · exact Or.inr ⟨a, List.mem_cons_self a ds, h3⟩
      · exact Or.inr ⟨d, List.mem_cons_of_mem a hd, hm⟩

theorem main_out_mem (cfg : Config) (es : List (String × FS)) (m : Msg)
    (h : m ∈ (cleanPlain.main cfg es).out) :
    m ∈ infoLines cfg ∨ (∃ k, m = Msg.summary k) ∨
      ∃ d, d ∈ gather_target_dirs es cfg.recursive ∧
        ((cfg.quiet = false ∧ m = Msg.skip (d ++ ["questions"])) ∨
          ∃ n, PLAIN_Q_REGEX n = true ∧
            (m = Msg.dry (d ++ ["questions", n]) ∨ m = Msg.del (d ++ ["questions", n]) ∨
              ∃ e, m = Msg.err (d ++ ["questions", n]) e)) := by
  unfold cleanPlain.main at h
  rcases List.mem_append.mp h with h1 | h1
  · rcases foldPD_out_mem cfg _ _ m h1 with h2 | ⟨d, hd, hm⟩
    · exact Or.inl h2
    · exact Or.inr (Or.inr ⟨d, (mem_sortPaths d _).mp hd, hm⟩)
  · exact Or.inr (Or.inl ⟨_, List.mem_singleton.mp h1⟩)

theorem main_summary_last (cfg : Config) (es : List (String × FS)) :
    (cleanPlain.main cfg es).out.getLast? =
      some (Msg.summary (if cfg.dry_run then (cleanPlain.main cfg es).total_candidates
        else (cleanPlain.main cfg es).total_deleted)) := by
  unfold cleanPlain.main
  dsimp only
  rw [List.getLast?_concat]

/-! ### Counters -/

theorem processCandidate_counters (cfg : Config) (st : RunState) (f : List String) :
    (processCandidate cfg st f).total_candidates = st.total_candidates ∧
    st.total_deleted ≤ (processCandidate cfg st f).total_deleted ∧
    (processCandidate cfg st f).total_deleted ≤ st.total_deleted + 1 := by
  unfold processCandidate
  by_cases hd : cfg.dry_run = true
  · rw [if_pos hd]
    exact ⟨rfl, Nat.le_refl _, Nat.le_succ _⟩
  · rw [if_neg hd]
    cases hu : unlink st.tree f
    · exact ⟨rfl, Nat.le_refl _, Nat.le_succ _⟩
    · exact ⟨rfl, Nat.le_succ _, Nat.le_refl _⟩

theorem foldPC_counters (cfg : Config) (fp : String → List String) :
    ∀ (l : List String) (st : RunState),
      ((l.foldl (fun s name => processCandidate cfg s (fp name)) st).total_candidates =
        st.total_candidates) ∧
      (l.foldl (fun s name => processCandidate cfg s (fp name)) st).total_deleted ≤
        st.total_deleted + l.length := by
  intro l
  induction l with
  | nil => exact fun st => ⟨rfl, by simp⟩
  | cons a l ih =>
      intro st
      rw [List.foldl_cons]
      obtain ⟨h1, h2, h3⟩ := processCandidate_counters cfg st (fp a)
      refine ⟨by rw [(ih _).1, h1], ?_⟩
      calc (l.foldl (fun s name => processCandidate cfg s (fp name))
              (processCandidate cfg st (fp a))).total_deleted
          ≤ (processCandidate cfg st (fp a)).total_deleted + l.length := (ih _).2
        _ ≤ (st.total_deleted + 1) + l.length := Nat.add_le_add_right h3 _
        _ = st.total_deleted + (a :: l).length := by
            simp [List.length_cons, Nat.add_assoc, Nat.add_comm 1 l.length]

theorem processQuestions_counters (cfg : Config) (st : RunState) (qdir : List String)
    (candidates : List String) :
    (processQuestions cfg st qdir candidates).total_candidates =
      st.total_candidates + candidates.length ∧
    (processQuestions cfg st qdir candidates).total_deleted ≤
      st.total_deleted + candidates.length := by
  unfold processQuestions
  by_cases hemp : candidates.isEmpty = true
  · rw [if_pos hemp]
    by_cases hq : cfg.quiet = true
    · rw [if_pos hq]
      exact ⟨rfl, Nat.le_add_right _ _⟩
    · rw [if_neg hq]
      exact ⟨rfl, Nat.le_add_right _ _⟩
  · rw [if_neg hemp]
    obtain ⟨h1, h2⟩ := foldPC_counters cfg (fun name => qdir ++ [name]) candidates
      { st with total_candidates := st.total_candidates + candidates.length }
    exact ⟨h1, h2⟩

theorem processDir_counters (cfg : Config) (st : RunState) (d : List String) :
    ∃ L, (processDir cfg st d).total_candidates = st.total_candidates + L ∧
      (processDir cfg st d).total_deleted ≤ st.total_deleted + L := by
  unfold processDir
  split
  case _ qes heq =>
    exact ⟨_, processQuestions_counters cfg st (d ++ ["questions"]) _⟩
  case _ =>
    exact ⟨0, rfl, Nat.le_add_right _ _⟩

theorem foldPD_deleted_le (cfg : Config) :
    ∀ (ds : List (List String)) (st : RunState),
      st.total_deleted ≤ st.total_candidates →
      (ds.foldl (processDir cfg) st).total_deleted ≤
        (ds.foldl (processDir cfg) st).total_candidates := by
  intro ds
  induction ds with
  | nil => exact fun st h => h
  | cons a ds ih =>
      intro st h
      rw [List.foldl_cons]
      refine ih _ ?_
      obtain ⟨L, h1, h2⟩ := processDir_counters cfg st a
      rw [h1]
      exact Nat.le_trans h2 (Nat.add_le_add_right h _)

/-- C6: the single summary line reports the total candidate count in dry-run
mode and the number of successful deletions in live mode, a count that never
exceeds the number of candidates considered. -/
theorem claim_C6 (cfg : Config) (es : List (String × FS)) :
    (cleanPlain.main cfg es).out.getLast? =
      some (Msg.summary (if cfg.dry_run then (cleanPlain.main cfg es).total_candidates
        else (cleanPlain.main cfg es).total_deleted)) ∧
    (cleanPlain.main cfg es).total_deleted ≤ (cleanPlain.main cfg es).total_candidates := by
  refine ⟨main_summary_last cfg es, ?_⟩
  unfold cleanPlain.main
  dsimp only
  exact foldPD_deleted_le cfg _ _ (Nat.le_refl 0)

/-! ### Dry-run leaves the tree untouched -/

theorem processCandidate_tree_dry (cfg : Config) (st : RunState) (f : List String)
    (hd : cfg.dry_run = true) : (processCandidate cfg st f).tree = st.tree := by
  unfold processCandidate
  rw [if_pos hd]

theorem foldPC_tree_dry (cfg : Config) (fp : String → List String)
    (hd : cfg.dry_run = true) :
    ∀ (l : List String) (st : RunState),
      (l.foldl (fun s name => processCandidate cfg s (fp name)) st).tree = st.tree := by
  intro l
  induction l with
  | nil => exact fun st => rfl
  | cons a l ih =>
      intro st
      rw [List.foldl_cons, ih _, processCandidate_tree_dry cfg st (fp a) hd]

theorem processQuestions_tree_dry (cfg : Config) (st : RunState) (qdir : List String)
    (candidates : List String) (hd : cfg.dry_run = true) :
    (processQuestions cfg st qdir candidates).tree = st.tree := by
  unfold processQuestions
  by_cases hemp : candidates.isEmpty = true
  · rw [if_pos hemp]
    by_cases hq : cfg.quiet = true
    · rw [if_pos hq]
    · rw [if_neg hq]
  · rw [if_neg hemp]
    exact foldPC_tree_dry cfg _ hd candidates _

theorem processDir_tree_dry (cfg : Config) (st : RunState) (d : List String)
    (hd : cfg.dry_run = true) : (processDir cfg st d).tree = st.tree := by
  unfold processDir
  split
  case _ qes heq => exact processQuestions_tree_dry cfg st _ _ hd
  case _ => rfl

theorem foldPD_tree_dry (cfg : Config) (hd : cfg.dry_run = true) :
    ∀ (ds : List (List String)) (st : RunState),
      (ds.foldl (processDir cfg) st).tree = st.tree := by
  intro ds
  induction ds with
  | nil => exact fun st => rfl
  | cons a ds ih =>
      intro st
      rw [List.foldl_cons, ih _, processDir_tree_dry cfg st a hd]

/-- C3: a dry run performs no filesystem mutation: the tree after the run is
the tree before it, whatever the root and however many candidates were found. -/
theorem claim_C3 (cfg : Config) (es : List (String × FS))
    (hd : cfg.dry_run = true) : (cleanPlain.main cfg es).tree = es := by
  unfold cleanPlain.main
  dsimp only
  exact foldPD_tree_dry cfg hd _ _

/-- Witness for C3: a concrete dry run over `demoTree` leaves it unchanged. -/
theorem claim_C3_witness : (cleanPlain.main cfgDry demoTree).tree = demoTree :=
  claim_C3 cfgDry demoTree rfl

/-! ### Quiet mode, per-file errors, and the name-only classification -/

/-- C4 counterexample: with `--quiet` in live mode the per-action `[DEL]` line
is still emitted, so quiet does not suppress per-action messages. -/
theorem claim_C4_counterexample :
    cfgQuietLive.quiet = true ∧
      Msg.del ["A", "questions", "q1.tex"] ∈ (cleanPlain.main cfgQuietLive demoTree).out := by
  constructor
  · rfl
  · decide

/-- C4 amended: `--quiet` suppresses exactly the `[INFO]` and `[SKIP]` lines;
the per-action `[DRY]`/`[DEL]`/`[ERR]` lines are not suppressed, and the final
`[SUMMARY]` line is still emitted. -/
theorem claim_C4_amended (cfg : Config) (es : List (String × FS))
    (hq : cfg.quiet = true) :
    (∀ m ∈ (cleanPlain.main cfg es).out, isInfoOrSkip m = false) ∧
    (cleanPlain.main cfg es).out.getLast? =
      some (Msg.summary (if cfg.dry_run then (cleanPlain.main cfg es).total_candidates
        else (cleanPlain.main cfg es).total_deleted)) := by
  refine ⟨?_, main_summary_last cfg es⟩
  intro m hm
  rcases main_out_mem cfg es m hm with h | ⟨k, hk⟩ | ⟨d, -, h⟩
  · rw [infoLines, if_pos hq] at h
    cases h
  · rw [hk]
    rfl
  · rcases h with ⟨hqf, -⟩ | ⟨n, -, h⟩
    · rw [hq] at hqf
      exact absurd hqf (by simp)
    · rcases h with h | h | ⟨e, h⟩ <;> rw [h] <;> rfl

/-- Witness for C4's amended claim at a concrete quiet live run. -/
theorem claim_C4_amended_witness :
    isInfoOrSkip (Msg.del ["A", "questions", "q1.tex"]) = false ∧
    (cleanPlain.main cfgQuietLive demoTree).out.getLast? =
      some (Msg.summary (if cfgQuietLive.dry_run then
        (cleanPlain.main cfgQuietLive demoTree).total_candidates
        else (cleanPlain.main cfgQuietLive demoTree).total_deleted)) :=
  ⟨(claim_C4_amended cfgQuietLive demoTree rfl).1 (Msg.del ["A", "questions", "q1.tex"])
      (by decide),
   (claim_C4_amended cfgQuietLive demoTree rfl).2⟩

/-- C5: in live mode a failed unlink of one candidate only appends an `[ERR]`
line naming the file and the reason — the tree and the deleted counter are
untouched — processing of the remaining candidates continues from that state,
and every run still ends with its `[SUMMARY]` line. -/
theorem claim_C5 (cfg : Config) (st : RunState) (f : List String) (e : String)
    (rest : List (List String)) (hd : cfg.dry_run = false)
    (hu : unlink st.tree f = Except.error e) :
    processCandidate cfg st f = { st with out := st.out ++ [Msg.err f e] } ∧
    List.foldl (processCandidate cfg) st (f :: rest) =
      List.foldl (processCandidate cfg) { st with out := st.out ++ [Msg.err f e] } rest ∧
    ∀ es2, (cleanPlain.main cfg es2).out.getLast? =
      some (Msg.summary (if cfg.dry_run then (cleanPlain.main cfg es2).total_candidates
        else (cleanPlain.main cfg es2).total_deleted)) := by
  have h1 : processCandidate cfg st f = { st with out := st.out ++ [Msg.err f e] } := by
    unfold processCandidate
    rw [if_neg (by rw [hd]; exact Bool.false_ne_true), hu]
  refine ⟨h1, ?_, fun es2 => main_summary_last cfg es2⟩
  rw [List.foldl_cons, h1]

/-- Witness for C5: unlinking the directory `A/questions/q1.tex` fails with
`Is a directory`, is reported, and leaves counters and tree unchanged. -/
theorem claim_C5_witness :
    processCandidate cfgLive st5 p5 = { st5 with out := st5.out ++ [Msg.err p5 "Is a directory"] } ∧
    List.foldl (processCandidate cfgLive) st5 (p5 :: []) =
      List.foldl (processCandidate cfgLive)
        { st5 with out := st5.out ++ [Msg.err p5 "Is a directory"] } [] ∧
    ∀ es2, (cleanPlain.main cfgLive es2).out.getLast? =
      some (Msg.summary (if cfgLive.dry_run then (cleanPlain.main cfgLive es2).total_candidates
        else (cleanPlain.main cfgLive es2).total_deleted)) :=
  claim_C5 cfgLive st5 p5 "Is a directory" [] rfl rfl

/-- C10: classification is by name only: a subdirectory named `q1.tex` inside a
`questions` directory is selected as a candidate, counted, and the attempted
unlink on it surfaces as a per-file `[ERR]` in a live run. -/
theorem claim_C10 :
    find_candidate_deletions (List.map Prod.fst [("q1.tex", FS.dir [])]) = ["q1.tex"] ∧
    (cleanPlain.main cfgLive dirCandTree).total_candidates = 1 ∧
    (cleanPlain.main cfgLive dirCandTree).total_deleted = 0 ∧
    Msg.err ["A", "questions", "q1.tex"] "Is a directory" ∈
      (cleanPlain.main cfgLive dirCandTree).out := by
  refine ⟨by decide, by decide, by decide, by decide⟩

/-! ### Scope of the traversal (C8) -/

theorem mem_infoLines_info (cfg : Config) (m : Msg) (h : m ∈ infoLines cfg) :
    ∃ s, m = Msg.info s := by
  unfold infoLines at h
  by_cases hq : cfg.quiet = true
  · rw [if_pos hq] at h
    cases h
  · rw [if_neg hq] at h
    rcases List.mem_append.mp h with h1 | h1
    · rcases List.mem_append.mp h1 with h2 | h2
      · exact ⟨"Root", List.mem_singleton.mp h2⟩
      · by_cases hr : cfg.recursive = true
        · rw [if_pos hr] at h2
          exact ⟨_, List.mem_singleton.mp h2⟩
        · rw [if_neg hr] at h2
          cases h2
    · by_cases hdr : cfg.dry_run = true
      · rw [if_pos hdr] at h1
        exact ⟨_, List.mem_singleton.mp h1⟩
      · rw [if_neg hdr] at h1
        cases h1

/-- C8: non-recursive gathering returns exactly the non-ignored direct child
directories of the root; recursive gathering returns exactly the non-ignored
descendant directories at any depth; the root itself is never a target; and
every file a live run deletes lies directly under the `questions` subdirectory
of a gathered target and has a plain `qN.tex` name. -/
theorem claim_C8 (es : List (String × FS)) (p : List String) (cfg : Config)
    (fp : List String) :
    (p ∈ gather_target_dirs es false ↔
      ∃ n t, p = [n] ∧ (n, t) ∈ es ∧ t.isDir = true ∧
        IGNORE_DIRS.contains n = false) ∧
    (p ∈ gather_target_dirs es true ↔
      ∃ t, (p, t) ∈ descList es ∧ t.isDir = true ∧
        IGNORE_DIRS.contains (pathBase p) = false) ∧
    ([] ∉ gather_target_dirs es cfg.recursive) ∧
    (Msg.del fp ∈ (cleanPlain.main cfg es).out →
      ∃ d n, d ∈ gather_target_dirs es cfg.recursive ∧ PLAIN_Q_REGEX n = true ∧
        fp = d ++ ["questions", n]) := by
  refine ⟨mem_gather_nonrec es p, mem_gather_rec es p,
    root_not_mem_gather es cfg.recursive, ?_⟩
  intro h
  rcases main_out_mem cfg es _ h with h1 | ⟨k, hk⟩ | ⟨d, hd, h1⟩
  · obtain ⟨s, hs⟩ := mem_infoLines_info cfg _ h1
    exact absurd hs (by simp)
  · exact absurd hk (by simp)
  · rcases h1 with ⟨-, habs⟩ | ⟨n, hplain, h2⟩
    · exact absurd habs (by simp)
    · rcases h2 with habs | hdel | ⟨e, habs⟩
      · exact absurd habs (by simp)
      · refine ⟨d, n, hd, hplain, ?_⟩
        injection hdel
      · exact absurd habs (by simp)

/-- Witness for C8: the file deleted in a concrete live run lies under the
`questions` folder of a gathered target directory and is plain-named. -/
theorem claim_C8_witness :
    ∃ d n, d ∈ gather_target_dirs demoTree cfgLive.recursive ∧
      PLAIN_Q_REGEX n = true ∧
      (["A", "questions", "q1.tex"] : List String) = d ++ ["questions", n] :=
  (claim_C8 demoTree [] cfgLive ["A", "questions", "q1.tex"]).2.2.2 (by decide)

/-! ### Entry-level lemmas for the idempotence argument (C7) -/

theorem findEntry_eq_none_of_not_mem (es : List (String × FS)) (n : String)
    (h : n ∉ es.map Prod.fst) : findEntry es n = none := by
  induction es with
  | nil => rfl
  | cons nt rest ih =>
      rcases nt with ⟨m, t⟩
      simp only [List.map_cons, List.mem_cons] at h
      push_neg at h
      simp only [findEntry]
      rw [if_neg (fun hc => h.1 hc.symm), ih h.2]

theorem removeEntry_sublist (es : List (String × FS)) (n : String) :
    List.Sublist (removeEntry es n) es := by
  induction es with
  | nil => exact List.Sublist.refl _
  | cons nt rest ih =>
      rcases nt with ⟨m, t⟩
      simp only [removeEntry]
      by_cases hm : m = n
      · rw [if_pos hm]
        exact List.sublist_cons_self _ _
      · rw [if_neg hm]
        exact List.Sublist.cons₂ _ ih

theorem findEntry_removeEntry_self (es : List (String × FS)) (n : String)
    (hnd : (es.map Prod.fst).Nodup) : findEntry (removeEntry es n) n = none := by
  induction es with
  | nil => rfl
  | cons nt rest ih =>
      rcases nt with ⟨m, t⟩
      simp only [List.map_cons, List.nodup_cons] at hnd
      simp only [removeEntry]
      by_cases hm : m = n
      · rw [if_pos hm]
        refine findEntry_eq_none_of_not_mem rest n ?_
        rw [← hm]
        exact hnd.1
      · rw [if_neg hm]
        simp only [findEntry]
        rw [if_neg hm, ih hnd.2]

theorem findEntry_removeEntry_ne (es : List (String × FS)) (n m : String)
    (hne : m ≠ n) : findEntry (removeEntry es n) m = findEntry es m := by
  induction es with
  | nil => rfl
  | cons nt rest ih =>
      rcases nt with ⟨a, t⟩
      simp only [removeEntry]
      by_cases ha : a = n
      · rw [if_pos ha]
        simp only [findEntry]
        rw [if_neg (fun hc => hne (hc.symm.trans ha))]
      · rw [if_neg ha]
        simp only [findEntry]
        by_cases ham : a = m
        · rw [if_pos ham, if_pos ham]
        · rw [if_neg ham, if_neg ham, ih]

theorem findEntry_setEntry_self (es : List (String × FS)) (n : String) (u t : FS)
    (h : findEntry es n = some t) : findEntry (setEntry es n u) n = some u := by
  induction es with
  | nil => exact absurd h (by simp [findEntry])
  | cons nt rest ih =>
      rcases nt with ⟨a, s⟩
      simp only [setEntry]
      by_cases ha : a = n
      · rw [if_pos ha]
        simp only [findEntry]
        rw [if_pos ha]
      · rw [if_neg ha]
        simp only [findEntry] at h ⊢
        rw [if_neg ha] at h ⊢
        exact ih h

theorem findEntry_setEntry_ne (es : List (String × FS)) (n : String) (u : FS)
    (m : String) (hne : m ≠ n) : findEntry (setEntry es n u) m = findEntry es m := by
  induction es with
  | nil => rfl
  | cons nt rest ih =>
      rcases nt with ⟨a, s⟩
      simp only [setEntry]
      by_cases ha : a = n
      · rw [if_pos ha]
        simp only [findEntry]
        rw [if_neg (fun hc => hne (hc.symm.trans ha)), if_neg (fun hc => hne (hc.symm.trans ha))]
      · rw [if_neg ha]
        simp only [findEntry]
        by_cases ham : a = m
        · rw [if_pos ham, if_pos ham]
        · rw [if_neg ham, if_neg ham, ih]

theorem map_fst_setEntry (es : List (String × FS)) (n : String) (u : FS) :
    (setEntry es n u).map Prod.fst = es.map Prod.fst := by
  induction es with
  | nil => rfl
  | cons nt rest ih =>
      rcases nt with ⟨a, s⟩
      simp only [setEntry]
      by_cases ha : a = n
      · rw [if_pos ha]
        simp
      · rw [if_neg ha]
        simp only [List.map_cons]
        rw [ih]

/-! ### Well-formedness is preserved by unlinking -/

theorem wfFS_iff (es : List (String × FS)) :
    wfFS es = true ↔ (es.map Prod.fst).Nodup ∧ entriesAllWfB es = true := by
  unfold wfFS
  simp only [FS.wfB, Bool.and_eq_true, decide_eq_true_eq]

theorem entriesAllWfB_mem (es : List (String × FS)) (h : entriesAllWfB es = true)
    (n : String) (t : FS) (hf : findEntry es n = some t) : FS.wfB t = true := by
  induction es with
  | nil => exact absurd hf (by simp [findEntry])
  | cons nt rest ih =>
      rcases nt with ⟨a, s⟩
      simp only [entriesAllWfB, Bool.and_eq_true] at h
      simp only [findEntry] at hf
      by_cases ha : a = n
      · rw [if_pos ha] at hf
        rw [← Option.some_inj.mp hf]
        exact h.1
      · rw [if_neg ha] at hf
        exact ih h.2 hf

theorem entriesAllWfB_sublist (l₁ l₂ : List (String × FS))
    (hs : List.Sublist l₁ l₂) (h : entriesAllWfB l₂ = true) :
    entriesAllWfB l₁ = true := by
  induction hs with
  | slnil => rfl
  | cons a hs ih =>
      rcases a with ⟨m, t⟩
      simp only [entriesAllWfB, Bool.and_eq_true] at h
      exact ih h.2
  | cons₂ a hs ih =>
      rcases a with ⟨m, t⟩
      simp only [entriesAllWfB, Bool.and_eq_true] at h ⊢
      exact ⟨h.1, ih h.2⟩

theorem wfFS_child (es : List (String × FS)) (n : String) (es2 : List (String × FS))
    (h : wfFS es = true) (hf : findEntry es n = some (FS.dir es2)) :
    wfFS es2 = true :=
  entriesAllWfB_mem es ((wfFS_iff es).mp h).2 n (FS.dir es2) hf

theorem wfFS_removeEntry (es : List (String × FS)) (n : String)
    (h : wfFS es = true) : wfFS (removeEntry es n) = true := by
  obtain ⟨hnd, hall⟩ := (wfFS_iff es).mp h
  refine (wfFS_iff _).mpr ⟨?_, ?_⟩
  · exact hnd.sublist (List.Sublist.map Prod.fst (removeEntry_sublist es n))
  · exact entriesAllWfB_sublist _ _ (removeEntry_sublist es n) hall

theorem entriesAllWfB_setEntry (es : List (String × FS)) (n : String) (u : FS)
    (h : entriesAllWfB es = true) (hu : FS.wfB u = true) :
    entriesAllWfB (setEntry es n u) = true := by
  induction es with
  | nil => rfl
  | cons nt rest ih =>
      rcases nt with ⟨a, s⟩
      simp only [entriesAllWfB, Bool.and_eq_true] at h
      simp only [setEntry]
      by_cases ha : a = n
      · rw [if_pos ha]
        simp only [entriesAllWfB, Bool.and_eq_true]
        exact ⟨hu, h.2⟩
      · rw [if_neg ha]
        simp only [entriesAllWfB, Bool.and_eq_true]
        exact ⟨h.1, ih h.2⟩

theorem wfFS_setEntry (es : List (String × FS)) (n : String) (u : FS)
    (h : wfFS es = true) (hu : FS.wfB u = true) : wfFS (setEntry es n u) = true := by
  obtain ⟨hnd, hall⟩ := (wfFS_iff es).mp h
  refine (wfFS_iff _).mpr ⟨?_, entriesAllWfB_setEntry es n u hall hu⟩
  rw [map_fst_setEntry]
  exact hnd

/-! ### Unlinking a file changes the node type only at the unlinked path -/

theorem unlink_step (r : List String) : ∀ (es es' : List (String × FS)),
    wfFS es = true → unlink es r = Except.ok es' →
    wfFS es' = true ∧ typeAt es' r = none ∧
      ∀ p, p ≠ r → typeAt es' p = typeAt es p := by
  induction r with
  | nil =>
      intro es es' hwf h
      exact absurd h (by simp [unlink])
  | cons n rest ih =>
      cases rest with
      | nil =>
          intro es es' hwf h
          simp only [unlink] at h
          cases hf : findEntry es n with
          | none => rw [hf] at h; cases h
          | some t =>
              cases t with
              | dir es2 => rw [hf] at h; cases h
              | file =>
                  rw [hf] at h
                  have hes' : es' = removeEntry es n := (Except.ok.inj h).symm
                  subst hes'
                  obtain ⟨hnd, -⟩ := (wfFS_iff es).mp hwf
                  refine ⟨wfFS_removeEntry es n hwf, ?_, ?_⟩
                  · simp only [typeAt, lookupFS]
                    rw [findEntry_removeEntry_self es n hnd]
                    rfl
                  · intro p hp
                    cases p with
                    | nil => rfl
                    | cons w pr =>
                        cases pr with
                        | nil =>
                            have hw : w ≠ n := fun hc => hp (by rw [hc])
                            simp only [typeAt, lookupFS]
                            rw [findEntry_removeEntry_ne es n w hw]
                        | cons k pr2 =>
                            by_cases hw : w = n
                            · subst hw
                              simp only [typeAt, lookupFS]
                              rw [findEntry_removeEntry_self es w hnd, hf]
                            · simp only [typeAt, lookupFS]
                              rw [findEntry_removeEntry_ne es n w hw]
      | cons m p2 =>
          intro es es' hwf h
          simp only [unlink] at h
          cases hf : findEntry es n with
          | none => rw [hf] at h; cases h
          | some t =>
              cases t with
              | file => rw [hf] at h; cases h
              | dir es2 =>
                  rw [hf] at h
                  dsimp only at h
                  cases hu : unlink es2 (m :: p2) with
                  | error e => rw [hu] at h; cases h
                  | ok es2' =>
                      rw [hu] at h
                      have hes' : es' = setEntry es n (FS.dir es2') := (Except.ok.inj h).symm
                      subst hes'
                      have hwf2 : wfFS es2 = true := wfFS_child es n es2 hwf hf
                      obtain ⟨hwf2', hnone, hother⟩ := ih es2 es2' hwf2 hu
                      refine ⟨wfFS_setEntry es n (FS.dir es2') hwf hwf2', ?_, ?_⟩
                      · simp only [typeAt, lookupFS]
                        rw [findEntry_setEntry_self es n (FS.dir es2') (FS.dir es2) hf]
                        exact hnone
                      · intro p hp
                        cases p with
                        | nil => rfl
                        | cons w pr =>
                            cases pr with
                            | nil =>
                                by_cases hw : w = n
                                · subst hw
                                  simp only [typeAt, lookupFS]
                                  rw [findEntry_setEntry_self es w (FS.dir es2') (FS.dir es2) hf, hf]
                                  rfl
                                · simp only [typeAt, lookupFS]
                                  rw [findEntry_setEntry_ne es n (FS.dir es2') w hw]
                            | cons k pr2 =>
                                by_cases hw : w = n
                                · subst hw
                                  have hne2 : (k :: pr2) ≠ (m :: p2) := fun hc => hp (by rw [hc])
                                  simp only [typeAt, lookupFS]
                                  rw [findEntry_setEntry_self es w (FS.dir es2') (FS.dir es2) hf, hf]
                                  exact hother _ hne2
                                · simp only [typeAt, lookupFS]
                                  rw [findEntry_setEntry_ne es n (FS.dir es2') w hw]

/-! ### Success of unlink is equivalent to the path denoting a file -/

theorem unlink_ok_typeAt (r : List String) : ∀ (es es' : List (String × FS)),
    unlink es r = Except.ok es' → typeAt es r = some false := by
  induction r with
  | nil =>
      intro es es' h
      exact absurd h (by simp [unlink])
  | cons n rest ih =>
      cases rest with
      | nil =>
          intro es es' h
          simp only [unlink] at h
          cases hf : findEntry es n with
          | none => rw [hf] at h; cases h
          | some t =>
              cases t with
              | dir es2 => rw [hf] at h; cases h
              | file =>
                  simp only [typeAt, lookupFS]
                  rw [hf]
                  rfl
      | cons m p2 =>
          intro es es' h
          simp only [unlink] at h
          cases hf : findEntry es n with
          | none => rw [hf] at h; cases h
          | some t =>
              cases t with
              | file => rw [hf] at h; cases h
              | dir es2 =>
                  rw [hf] at h
                  dsimp only at h
                  cases hu : unlink es2 (m :: p2) with
                  | error e => rw [hu] at h; cases h
                  | ok es2' =>
                      simp only [typeAt, lookupFS]
                      rw [hf]
                      exact ih es2 es2' hu

theorem typeAt_file_unlink_ok (r : List String) : ∀ (es : List (String × FS)),
    typeAt es r = some false → ∃ es', unlink es r = Except.ok es' := by
  induction r with
  | nil =>
      intro es h
      exact absurd h (by simp [typeAt, lookupFS, FS.isDir])
  | cons n rest ih =>
      cases rest with
      | nil =>
          intro es h
          simp only [typeAt, lookupFS] at h
          cases hf : findEntry es n with
          | none => rw [hf] at h; cases h
          | some t =>
              cases t with
              | dir es2 =>
                  rw [hf] at h
                  simp [FS.isDir] at h
              | file =>
                  refine ⟨removeEntry es n, ?_⟩
                  simp only [unlink]
                  rw [hf]
      | cons m p2 =>
          intro es h
          simp only [typeAt, lookupFS] at h
          cases hf : findEntry es n with
          | none => rw [hf] at h; cases h
          | some t =>
              cases t with
              | file =>
                  rw [hf] at h
                  cases h
              | dir es2 =>
                  rw [hf] at h
                  dsimp only at h
                  obtain ⟨es2', hu⟩ := ih es2 h
                  refine ⟨setEntry es n (FS.dir es2'), ?_⟩
                  simp only [unlink]
                  rw [hf]
                  dsimp only
                  rw [hu]

/-! ### Extending a path by one component -/

theorem lookupFS_append_single (q : List String) : ∀ (es : List (String × FS)) (n : String),
    lookupFS es (q ++ [n]) =
      match lookupFS es q with
      | some (FS.dir qes) => findEntry qes n
      | _ => none := by
  induction q with
  | nil => intro es n; rfl
  | cons m q ih =>
      intro es n
      cases q with
      | nil =>
          cases hf : findEntry es m with
          | none => simp [lookupFS, hf]
          | some t =>
              cases t with
              | file => simp [lookupFS, hf]
              | dir es2 => simp [lookupFS, hf]
      | cons k q2 =>
          cases hf : findEntry es m with
          | none => simp [lookupFS, hf]
          | some t =>
              cases t with
              | file => simp [lookupFS, hf]
              | dir es2 =>
                  have := ih es2 n
                  simp only [lookupFS, List.cons_append, hf]
                  exact this

theorem typeAt_ext_of_qdir (es : List (String × FS)) (q : List String) (n : String)
    (qes : List (String × FS)) (h : lookupFS es q = some (FS.dir qes)) :
    typeAt es (q ++ [n]) = (findEntry qes n).map FS.isDir := by
  unfold typeAt
  rw [lookupFS_append_single q es n, h]

theorem typeAt_ext_of_not_dir (es : List (String × FS)) (q : List String) (n : String)
    (h : ∀ qes, lookupFS es q ≠ some (FS.dir qes)) :
    typeAt es (q ++ [n]) = none := by
  unfold typeAt
  rw [lookupFS_append_single q es n]
  cases hl : lookupFS es q with
  | none => rfl
  | some t =>
      cases t with
      | file => rfl
      | dir qes => exact absurd hl (h qes)

/-! ### Run steps preserve well-formedness and the absence of a file -/

theorem processCandidate_preserve (cfg : Config) (st : RunState) (f : List String)
    (hwf : wfFS st.tree = true) :
    wfFS (processCandidate cfg st f).tree = true ∧
    ∀ p, typeAt st.tree p ≠ some false →
      typeAt (processCandidate cfg st f).tree p ≠ some false := by
  unfold processCandidate
  by_cases hd : cfg.dry_run = true
  · rw [if_pos hd]
    exact ⟨hwf, fun p h => h⟩
  · rw [if_neg hd]
    cases hu : unlink st.tree f with
    | error e => exact ⟨hwf, fun p h => h⟩
    | ok tr =>
        obtain ⟨hwf', hnone, hother⟩ := unlink_step f st.tree tr hwf hu
        refine ⟨hwf', fun p h => ?_⟩
        show typeAt tr p ≠ some false
        by_cases hp : p = f
        · rw [hp, hnone]
          simp
        · rw [hother p hp]
          exact h

theorem foldPC_preserve (cfg : Config) (fp : String → List String) :
    ∀ (l : List String) (st : RunState), wfFS st.tree = true →
      wfFS ((l.foldl (fun s name => processCandidate cfg s (fp name)) st).tree) = true ∧
      ∀ p, typeAt st.tree p ≠ some false →
        typeAt ((l.foldl (fun s name => processCandidate cfg s (fp name)) st).tree) p ≠
          some false := by
  intro l
  induction l with
  | nil => exact fun st h => ⟨h, fun p hp => hp⟩
  | cons a l ih =>
      intro st hwf
      rw [List.foldl_cons]
      obtain ⟨hwf1, hpres1⟩ := processCandidate_preserve cfg st (fp a) hwf
      obtain ⟨hwf2, hpres2⟩ := ih _ hwf1
      exact ⟨hwf2, fun p hp => hpres2 p (hpres1 p hp)⟩

theorem processQuestions_preserve (cfg : Config) (st : RunState) (qdir : List String)
    (candidates : List String) (hwf : wfFS st.tree = true) :
    wfFS (processQuestions cfg st qdir candidates).tree = true ∧
    ∀ p, typeAt st.tree p ≠ some false →
      typeAt (processQuestions cfg st qdir candidates).tree p ≠ some false := by
  unfold processQuestions
  by_cases hemp : candidates.isEmpty = true
  · rw [if_pos hemp]
    by_cases hq : cfg.quiet = true
    · rw [if_pos hq]
      exact ⟨hwf, fun p h => h⟩
    · rw [if_neg hq]
      exact ⟨hwf, fun p h => h⟩
  · rw [if_neg hemp]
    exact foldPC_preserve cfg (fun name => qdir ++ [name]) candidates _ hwf

theorem processDir_preserve (cfg : Config) (st : RunState) (d : List String)
    (hwf : wfFS st.tree = true) :
    wfFS (processDir cfg st d).tree = true ∧
    ∀ p, typeAt st.tree p ≠ some false →
      typeAt (processDir cfg st d).tree p ≠ some false := by
  unfold processDir
  split
  case _ qes heq => exact processQuestions_preserve cfg st _ _ hwf
  case _ => exact ⟨hwf, fun p h => h⟩

theorem foldPD_preserve (cfg : Config) :
    ∀ (ds : List (List String)) (st : RunState), wfFS st.tree = true →
      wfFS ((ds.foldl (processDir cfg) st).tree) = true ∧
      ∀ p, typeAt st.tree p ≠ some false →
        typeAt ((ds.foldl (processDir cfg) st).tree) p ≠ some false := by
  intro ds
  induction ds with
  | nil => exact fun st h => ⟨h, fun p hp => hp⟩
  | cons a ds ih =>
      intro st hwf
      rw [List.foldl_cons]
      obtain ⟨hwf1, hpres1⟩ := processDir_preserve cfg st a hwf
      obtain ⟨hwf2, hpres2⟩ := ih _ hwf1
      exact ⟨hwf2, fun p hp => hpres2 p (hpres1 p hp)⟩

/-! ### Unlinking never changes the set of directories -/

theorem dirPaths_cons_file (m : String) (xs : List (String × FS)) :
    dirPaths ((m, FS.file) :: xs) = dirPaths xs := by
  simp [dirPaths, descList, FS.descendants, FS.isDir]

theorem dirPaths_cons_dir (m : String) (u : List (String × FS))
    (xs : List (String × FS)) :
    dirPaths ((m, FS.dir u) :: xs) =
      [m] :: ((dirPaths u).map (fun q => m :: q) ++ dirPaths xs) := by
  unfold dirPaths
  simp only [descList, FS.descendants]
  rw [List.filter_cons_of_pos (by rfl), List.map_cons, List.filter_append,
    List.map_append, List.filter_map (fun q => ((m :: q.1, q.2) : List String × FS))
      (descList u), List.map_map, List.map_map]
  rfl

theorem childDirPaths_cons_file (m : String) (xs : List (String × FS)) :
    childDirPaths ((m, FS.file) :: xs) = childDirPaths xs := by
  simp [childDirPaths, FS.isDir]

theorem childDirPaths_cons_dir (m : String) (u : List (String × FS))
    (xs : List (String × FS)) :
    childDirPaths ((m, FS.dir u) :: xs) = [m] :: childDirPaths xs := by
  simp [childDirPaths, FS.isDir]

theorem removeEntry_file_paths (es : List (String × FS)) (n : String)
    (hf : findEntry es n = some FS.file) :
    dirPaths (removeEntry es n) = dirPaths es ∧
      childDirPaths (removeEntry es n) = childDirPaths es := by
  induction es with
  | nil => cases hf
  | cons nt rest ih =>
      rcases nt with ⟨a, t⟩
      simp only [findEntry] at hf
      simp only [removeEntry]
      by_cases ha : a = n
      · rw [if_pos ha] at hf
        have ht : t = FS.file := Option.some.inj hf
        subst ht
        rw [if_pos ha]
        exact ⟨(dirPaths_cons_file a rest).symm, (childDirPaths_cons_file a rest).symm⟩
      · rw [if_neg ha] at hf
        obtain ⟨h1, h2⟩ := ih hf
        rw [if_neg ha]
        cases t with
        | file =>
            rw [dirPaths_cons_file, dirPaths_cons_file, h1,
              childDirPaths_cons_file, childDirPaths_cons_file, h2]
            exact ⟨rfl, rfl⟩
        | dir u =>
            rw [dirPaths_cons_dir, dirPaths_cons_dir, h1,
              childDirPaths_cons_dir, childDirPaths_cons_dir, h2]
            exact ⟨rfl, rfl⟩

theorem setEntry_dir_paths (es : List (String × FS)) (n : String)
    (es2 es2' : List (String × FS)) (hf : findEntry es n = some (FS.dir es2))
    (hdp : dirPaths es2' = dirPaths es2) :
    dirPaths (setEntry es n (FS.dir es2')) = dirPaths es ∧
      childDirPaths (setEntry es n (FS.dir es2')) = childDirPaths es := by
  induction es with
  | nil => cases hf
  | cons nt rest ih =>
      rcases nt with ⟨a, t⟩
      simp only [findEntry] at hf
      simp only [setEntry]
      by_cases ha : a = n
      · rw [if_pos ha] at hf
        have ht : t = FS.dir es2 := Option.some.inj hf
        subst ht
        rw [if_pos ha]
        rw [dirPaths_cons_dir, dirPaths_cons_dir, hdp,
          childDirPaths_cons_dir, childDirPaths_cons_dir]
        exact ⟨rfl, rfl⟩
      · rw [if_neg ha] at hf
        obtain ⟨h1, h2⟩ := ih hf
        rw [if_neg ha]
        cases t with
        | file =>
            rw [dirPaths_cons_file, dirPaths_cons_file, h1,
              childDirPaths_cons_file, childDirPaths_cons_file, h2]
            exact ⟨rfl, rfl⟩
        | dir u =>
            rw [dirPaths_cons_dir, dirPaths_cons_dir, h1,
              childDirPaths_cons_dir, childDirPaths_cons_dir, h2]
            exact ⟨rfl, rfl⟩

theorem unlink_paths (r : List String) : ∀ (es es' : List (String × FS)),
    unlink es r = Except.ok es' →
    dirPaths es' = dirPaths es ∧ childDirPaths es' = childDirPaths es := by
  induction r with
  | nil =>
      intro es es' h
      exact absurd h (by simp [unlink])
  | cons n rest ih =>
      cases rest with
      | nil =>
          intro es es' h
          simp only [unlink] at h
          cases hf : findEntry es n with
          | none => rw [hf] at h; cases h
          | some t =>
              cases t with
              | dir es2 => rw [hf] at h; cases h
              | file =>
                  rw [hf] at h
                  have hes' : es' = removeEntry es n := (Except.ok.inj h).symm
                  subst hes'
                  exact removeEntry_file_paths es n hf
      | cons m p2 =>
          intro es es' h
          simp only [unlink] at h
          cases hf : findEntry es n with
          | none => rw [hf] at h; cases h
          | some t =>
              cases t with
              | file => rw [hf] at h; cases h
              | dir es2 =>
                  rw [hf] at h
                  dsimp only at h
                  cases hu : unlink es2 (m :: p2) with
                  | error e => rw [hu] at h; cases h
                  | ok es2' =>
                      rw [hu] at h
                      have hes' : es' = setEntry es n (FS.dir es2') := (Except.ok.inj h).symm
                      subst hes'
                      exact setEntry_dir_paths es n es2 es2' hf (ih es2 es2' hu).1

theorem unlink_gather (r : List String) (es es' : List (String × FS)) (b : Bool)
    (h : unlink es r = Except.ok es') :
    gather_target_dirs es' b = gather_target_dirs es b := by
  obtain ⟨h1, h2⟩ := unlink_paths r es es' h
  cases b
  · rw [gather_nonrec_eq, gather_nonrec_eq, h2]
  · rw [gather_rec_eq, gather_rec_eq, h1]

theorem processCandidate_gather (cfg : Config) (st : RunState) (f : List String)
    (b : Bool) :
    gather_target_dirs (processCandidate cfg st f).tree b =
      gather_target_dirs st.tree b := by
  unfold processCandidate
  by_cases hd : cfg.dry_run = true
  · rw [if_pos hd]
  · rw [if_neg hd]
    cases hu : unlink st.tree f with
    | error e => rfl
    | ok tr => exact unlink_gather f st.tree tr b hu

theorem foldPC_gather (cfg : Config) (fp : String → List String) (b : Bool) :
    ∀ (l : List String) (st : RunState),
      gather_target_dirs ((l.foldl (fun s name => processCandidate cfg s (fp name)) st).tree) b =
        gather_target_dirs st.tree b := by
  intro l
  induction l with
  | nil => exact fun st => rfl
  | cons a l ih =>
      intro st
      rw [List.foldl_cons, ih _, processCandidate_gather cfg st (fp a) b]

theorem processQuestions_gather (cfg : Config) (st : RunState) (qdir : List String)
    (candidates : List String) (b : Bool) :
    gather_target_dirs (processQuestions cfg st qdir candidates).tree b =
      gather_target_dirs st.tree b := by
  unfold processQuestions
  by_cases hemp : candidates.isEmpty = true
  · rw [if_pos hemp]
    by_cases hq : cfg.quiet = true
    · rw [if_pos hq]
    · rw [if_neg hq]
  · rw [if_neg hemp]
    exact foldPC_gather cfg (fun name => qdir ++ [name]) b candidates _

theorem processDir_gather (cfg : Config) (st : RunState) (d : List String) (b : Bool) :
    gather_target_dirs (processDir cfg st d).tree b = gather_target_dirs st.tree b := by
  unfold processDir
  split
  case _ qes heq => exact processQuestions_gather cfg st _ _ b
  case _ => rfl

theorem foldPD_gather (cfg : Config) (b : Bool) :
    ∀ (ds : List (List String)) (st : RunState),
      gather_target_dirs ((ds.foldl (processDir cfg) st).tree) b =
        gather_target_dirs st.tree b := by
  intro ds
  induction ds with
  | nil => exact fun st => rfl
  | cons a ds ih =>
      intro st
      rw [List.foldl_cons, ih _, processDir_gather cfg st a b]

theorem main_gather (cfg : Config) (es : List (String × FS)) (b : Bool) :
    gather_target_dirs (cleanPlain.main cfg es).tree b = gather_target_dirs es b := by
  unfold cleanPlain.main
  dsimp only
  exact foldPD_gather cfg b _ _

/-! ### A live run removes every plain-named file it can reach -/

theorem foldPC_establish (cfg : Config) (qp : List String) (hd : cfg.dry_run = false) :
    ∀ (l : List String) (st : RunState), wfFS st.tree = true → ∀ n ∈ l,
      typeAt ((l.foldl (fun s name => processCandidate cfg s (qp ++ [name])) st).tree)
        (qp ++ [n]) ≠ some false := by
  intro l
  induction l with
  | nil =>
      intro st hwf n hn
      cases hn
  | cons a l ih =>
      intro st hwf n hn
      rw [List.foldl_cons]
      rcases List.mem_cons.mp hn with rfl | hmem
      · obtain ⟨hwfa, -⟩ := processCandidate_preserve cfg st (qp ++ [n]) hwf
        have hnow : typeAt ((processCandidate cfg st (qp ++ [n])).tree) (qp ++ [n]) ≠
            some false := by
          unfold processCandidate
          rw [if_neg (by rw [hd]; exact Bool.false_ne_true)]
          cases hu : unlink st.tree (qp ++ [n]) with
          | error e =>
              show typeAt st.tree (qp ++ [n]) ≠ some false
              intro hc
              obtain ⟨es', hok⟩ := typeAt_file_unlink_ok (qp ++ [n]) st.tree hc
              rw [hok] at hu
              cases hu
          | ok tr =>
              obtain ⟨-, hnone, -⟩ := unlink_step (qp ++ [n]) st.tree tr hwf hu
              show typeAt tr (qp ++ [n]) ≠ some false
              rw [hnone]
              simp
        exact (foldPC_preserve cfg (fun name => qp ++ [name]) l _ hwfa).2 _ hnow
      · obtain ⟨hwfa, -⟩ := processCandidate_preserve cfg st (qp ++ [a]) hwf
        exact ih _ hwfa n hmem

theorem processDir_establish (cfg : Config) (st : RunState) (d : List String)
    (hd : cfg.dry_run = false) (hwf : wfFS st.tree = true) :
    noPlainFileAt (processDir cfg st d).tree d := by
  intro n hplain
  have hpath : d ++ ["questions", n] = (d ++ ["questions"]) ++ [n] :=
    (List.append_assoc d ["questions"] [n]).symm
  rw [hpath]
  unfold processDir
  cases hl : lookupFS st.tree (d ++ ["questions"]) with
  | none =>
      show typeAt st.tree ((d ++ ["questions"]) ++ [n]) ≠ some false
      rw [typeAt_ext_of_not_dir st.tree _ n
        (fun qes hc => by rw [hl] at hc; cases hc)]
      simp
  | some t =>
      cases t with
      | file =>
          show typeAt st.tree ((d ++ ["questions"]) ++ [n]) ≠ some false
          rw [typeAt_ext_of_not_dir st.tree _ n
            (fun qes hc => by rw [hl] at hc; exact FS.noConfusion (Option.some.inj hc))]
          simp
      | dir qes =>
          by_cases hmem : n ∈ qes.map Prod.fst
          · have hcand : n ∈ find_candidate_deletions (qes.map Prod.fst) :=
              (mem_candidates_iff _ n).mpr ⟨hmem, hplain⟩
            show typeAt (processQuestions cfg st (d ++ ["questions"])
              (find_candidate_deletions (qes.map Prod.fst))).tree
              ((d ++ ["questions"]) ++ [n]) ≠ some false
            unfold processQuestions
            rw [if_neg (by
              intro hemp
              rw [List.isEmpty_iff] at hemp
              rw [hemp] at hcand
              cases hcand)]
            exact foldPC_establish cfg (d ++ ["questions"]) hd
              (find_candidate_deletions (qes.map Prod.fst))
              { st with total_candidates := st.total_candidates +
                  (find_candidate_deletions (qes.map Prod.fst)).length }
              hwf n hcand
          · have hinit : typeAt st.tree ((d ++ ["questions"]) ++ [n]) ≠ some false := by
              rw [typeAt_ext_of_qdir st.tree _ n qes hl,
                findEntry_eq_none_of_not_mem qes n hmem]
              simp
            exact (processQuestions_preserve cfg st _ _ hwf).2 _ hinit

theorem foldPD_establish (cfg : Config) (hd : cfg.dry_run = false) :
    ∀ (ds : List (List String)) (st : RunState), wfFS st.tree = true →
      ∀ d ∈ ds, noPlainFileAt ((ds.foldl (processDir cfg) st).tree) d := by
  intro ds
  induction ds with
  | nil =>
      intro st hwf d hd2
      cases hd2
  | cons a ds ih =>
      intro st hwf d hd2
      rw [List.foldl_cons]
      obtain ⟨hwfa, -⟩ := processDir_preserve cfg st a hwf
      rcases List.mem_cons.mp hd2 with rfl | hmem
      · intro n hplain
        exact (foldPD_preserve cfg ds _ hwfa).2 _
          (processDir_establish cfg st d hd hwf n hplain)
      · exact ih _ hwfa d hmem

/-! ### A run over a tree with no reachable plain files does nothing -/

theorem foldPC_noop (cfg : Config) (qp : List String) (hd : cfg.dry_run = false) :
    ∀ (l : List String) (st : RunState),
      (∀ n ∈ l, typeAt st.tree (qp ++ [n]) ≠ some false) →
      ((l.foldl (fun s name => processCandidate cfg s (qp ++ [name])) st).tree = st.tree ∧
        (l.foldl (fun s name => processCandidate cfg s (qp ++ [name])) st).total_deleted =
          st.total_deleted) := by
  intro l
  induction l with
  | nil => exact fun st h => ⟨rfl, rfl⟩
  | cons a l ih =>
      intro st h
      rw [List.foldl_cons]
      have hstep : (processCandidate cfg st (qp ++ [a])).tree = st.tree ∧
          (processCandidate cfg st (qp ++ [a])).total_deleted = st.total_deleted ∧
          (processCandidate cfg st (qp ++ [a])).total_candidates = st.total_candidates := by
        unfold processCandidate
        rw [if_neg (by rw [hd]; exact Bool.false_ne_true)]
        cases hu : unlink st.tree (qp ++ [a]) with
        | error e => exact ⟨rfl, rfl, rfl⟩
        | ok tr =>
            exact absurd (unlink_ok_typeAt (qp ++ [a]) st.tree tr hu)
              (h a (List.mem_cons_self a l))
      have h2 : ∀ n ∈ l, typeAt (processCandidate cfg st (qp ++ [a])).tree (qp ++ [n]) ≠
          some false := by
        rw [hstep.1]
        exact fun n hn => h n (List.mem_cons_of_mem a hn)
      obtain ⟨ht, hdel⟩ := ih _ h2
      rw [ht, hdel, hstep.1, hstep.2.1]
      exact ⟨rfl, rfl⟩

theorem processDir_noop (cfg : Config) (st : RunState) (d : List String)
    (hd : cfg.dry_run = false) (hnp : noPlainFileAt st.tree d) :
    (processDir cfg st d).tree = st.tree ∧
      (processDir cfg st d).total_deleted = st.total_deleted := by
  unfold processDir
  cases hl : lookupFS st.tree (d ++ ["questions"]) with
  | none => exact ⟨rfl, rfl⟩
  | some t =>
      cases t with
      | file => exact ⟨rfl, rfl⟩
      | dir qes =>
          dsimp only
          unfold processQuestions
          by_cases hemp : (find_candidate_deletions (qes.map Prod.fst)).isEmpty = true
          · rw [if_pos hemp]
            by_cases hq : cfg.quiet = true
            · rw [if_pos hq]
              exact ⟨rfl, rfl⟩
            · rw [if_neg hq]
              exact ⟨rfl, rfl⟩
          · rw [if_neg hemp]
            have hall : ∀ n ∈ find_candidate_deletions (qes.map Prod.fst),
                typeAt st.tree ((d ++ ["questions"]) ++ [n]) ≠ some false := by
              intro n hn
              obtain ⟨-, hplain⟩ := (mem_candidates_iff _ n).mp hn
              have happ : d ++ ["questions"] ++ [n] = d ++ ["questions", n] :=
                List.append_assoc d ["questions"] [n]
              rw [happ]
              exact hnp n hplain
            exact foldPC_noop cfg (d ++ ["questions"]) hd _ _ hall

theorem foldPD_noop (cfg : Config) (hd : cfg.dry_run = false) :
    ∀ (ds : List (List String)) (st : RunState),
      (∀ d ∈ ds, noPlainFileAt st.tree d) →
      ((ds.foldl (processDir cfg) st).tree = st.tree ∧
        (ds.foldl (processDir cfg) st).total_deleted = st.total_deleted) := by
  intro ds
  induction ds with
  | nil => exact fun st h => ⟨rfl, rfl⟩
  | cons a ds ih =>
      intro st h
      rw [List.foldl_cons]
      obtain ⟨ht, hdel⟩ := processDir_noop cfg st a hd (h a (List.mem_cons_self a ds))
      have h2 : ∀ d ∈ ds, noPlainFileAt (processDir cfg st a).tree d := by
        rw [ht]
        exact fun d hd2 => h d (List.mem_cons_of_mem a hd2)
      obtain ⟨ht2, hdel2⟩ := ih _ h2
      rw [ht2, hdel2, ht, hdel]
      exact ⟨rfl, rfl⟩

/-! ### Idempotence of a live run (C7) -/

theorem main_wf (cfg : Config) (es : List (String × FS)) (hwf : wfFS es = true) :
    wfFS (cleanPlain.main cfg es).tree = true := by
  unfold cleanPlain.main
  dsimp only
  exact (foldPD_preserve cfg _ ⟨es, 0, 0, infoLines cfg⟩ hwf).1

theorem main_establish (cfg : Config) (es : List (String × FS))
    (hd : cfg.dry_run = false) (hwf : wfFS es = true) :
    ∀ d ∈ sortPaths (gather_target_dirs es cfg.recursive),
      noPlainFileAt (cleanPlain.main cfg es).tree d := by
  unfold cleanPlain.main
  dsimp only
  exact foldPD_establish cfg hd _ ⟨es, 0, 0, infoLines cfg⟩ hwf

/-- C7 counterexample: over a root whose only pattern-matching entry is a
directory named `q1.tex`, the first live run fails to delete it, and the
second run finds that same candidate again — not zero candidates. -/
theorem claim_C7_counterexample :
    cfgLive.dry_run = false ∧
    (cleanPlain.main cfgLive (cleanPlain.main cfgLive dirCandTree).tree).total_candidates
      = 1 := by
  exact ⟨rfl, by decide⟩

/-- C7 amended: on a well-formed filesystem, a second live run over the result
of a first live run deletes nothing — it leaves the tree unchanged, its
deleted counter is 0, and its summary line reports 0 — though it may re-find
(and fail again on) candidates whose deletion failed in the first run. -/
theorem claim_C7_amended (cfg : Config) (es : List (String × FS))
    (hd : cfg.dry_run = false) (hwf : wfFS es = true) :
    (cleanPlain.main cfg (cleanPlain.main cfg es).tree).tree =
      (cleanPlain.main cfg es).tree ∧
    (cleanPlain.main cfg (cleanPlain.main cfg es).tree).total_deleted = 0 ∧
    (cleanPlain.main cfg (cleanPlain.main cfg es).tree).out.getLast? =
      some (Msg.summary 0) := by
  have hg : gather_target_dirs (cleanPlain.main cfg es).tree cfg.recursive =
      gather_target_dirs es cfg.recursive := main_gather cfg es cfg.recursive
  have hnp : ∀ d ∈ sortPaths (gather_target_dirs (cleanPlain.main cfg es).tree
      cfg.recursive), noPlainFileAt (cleanPlain.main cfg es).tree d := by
    rw [hg]
    exact main_establish cfg es hd hwf
  have hrun2 := foldPD_noop cfg hd
    (sortPaths (gather_target_dirs (cleanPlain.main cfg es).tree cfg.recursive))
    ⟨(cleanPlain.main cfg es).tree, 0, 0, infoLines cfg⟩ hnp
  have h0 : (cleanPlain.main cfg (cleanPlain.main cfg es).tree).total_deleted = 0 :=
    hrun2.2
  refine ⟨hrun2.1, h0, ?_⟩
  have hlast := main_summary_last cfg (cleanPlain.main cfg es).tree
  rw [hd] at hlast
  simp only [Bool.false_eq_true, if_false] at hlast
  rw [h0] at hlast
  exact hlast

/-- Witness for C7's amended claim: a second live run over the cleaned
`demoTree` changes nothing and reports 0. -/
theorem claim_C7_amended_witness :
    (cleanPlain.main cfgLive (cleanPlain.main cfgLive demoTree).tree).tree =
      (cleanPlain.main cfgLive demoTree).tree ∧
    (cleanPlain.main cfgLive (cleanPlain.main cfgLive demoTree).tree).total_deleted = 0 ∧
    (cleanPlain.main cfgLive (cleanPlain.main cfgLive demoTree).tree).out.getLast? =
      some (Msg.summary 0) :=
  claim_C7_amended cfgLive demoTree rfl (by decide)
